import Mathlib

/-!
Shallow embedding of the TuiNotes core (Go) for specification checking.

The definitions below are direct translations of the Go sources:
  internal/utils/fuzzy.go        (FuzzyMatch, FuzzySearch, SplitWords, ContainsAnyWord)
  internal/ui/notes_list.go      (NotesListModel: filterNotes, setSearchMode, Update key handling)
  internal/ui/note_editor.go     (NoteEditorModel: updateTagSuggestions, addTag,
                                  handleTagTextInput, handleTagInput, saveNote)
  internal/storage (service + repos)  (Store: createNote, updateNote, getOrCreateTag,
                                  addTagToNote, removeTagFromNote)

Go strings are modelled as Lean `String`; where Go indexes bytes on ASCII-only
keys we use `String.utf8ByteSize`. Go `int` fields (cursors) are `Int`.
Unicode character classes (unicode.IsLetter/IsDigit, strings.ToLower/EqualFold,
strings.TrimSpace) are modelled with their ASCII behaviour via `Char` helpers.
Stateful Go methods become state-passing functions on model structures.
-/

/-- models.Tag as used throughout src: store-assigned integer ID and a name.
A `models.Tag{Name: n}` literal in Go carries the zero value `ID = 0`. -/
structure Tag where
  ID : Int
  Name : String
deriving Repr, DecidableEq

/-- models.Note as used by the UI layer: ID, title, content and attached tags
(timestamps are irrelevant to the claims and omitted). -/
structure Note where
  ID : Int
  Title : String
  Content : String
  Tags : List Tag
deriving Repr, DecidableEq

/-! ## internal/utils/fuzzy.go -/

/-- The scan loop of FuzzyMatch: walks the candidate runes left to right,
tracking (patternIndex, score) with the consecutive-match counter.
Returns the final (patternIndex, score). -/
def fuzzyLoop (p : List Char) : List Char → Nat → Nat → Nat → Nat × Nat
  | [], pIdx, score, _ => (pIdx, score)
  | c :: rest, pIdx, score, consec =>
    if pIdx < p.length ∧ p.getD pIdx c = c then
      fuzzyLoop p rest (pIdx + 1) (score + 10 + consec * 2) (consec + 1)
    else
      fuzzyLoop p rest pIdx score 0

/-- FuzzyMatch from fuzzy.go: empty pattern scores 100; otherwise a greedy
case-insensitive subsequence scan with consecutive bonuses, plus a
100/len(text) bonus when the whole pattern was consumed, else 0. -/
def FuzzyMatch (pattern text : String) : Nat :=
  if pattern = "" then 100
  else
    let p := pattern.toList.map Char.toLower
    let t := text.toList.map Char.toLower
    let r := fuzzyLoop p t 0 0 0
    if r.1 = p.length then
      r.2 + (if 0 < t.length then 100 / t.length else 0)
    else 0

/-- SearchResult from fuzzy.go. -/
structure SearchResult where
  Text : String
  Score : Nat
deriving Repr, DecidableEq

/-- One iteration of the outer sort loop in FuzzySearch: the Go code holds
results[i] and scans j = i+1..n-1, swapping whenever results[j].Score is
larger. Threading the slot results[i] as `x`, this returns the final value of
results[i] together with the values left behind in positions i+1..n-1. -/
def exchangePass (x : SearchResult) : List SearchResult → SearchResult × List SearchResult
  | [] => (x, [])
  | y :: ys =>
    if x.Score < y.Score then
      let r := exchangePass y ys
      (r.1, x :: r.2)
    else
      let r := exchangePass x ys
      (r.1, y :: r.2)

theorem exchangePass_length (x : SearchResult) (l : List SearchResult) :
    (exchangePass x l).2.length = l.length := by
  induction l generalizing x with
  | nil => rfl
  | cons y ys ih =>
    unfold exchangePass
    by_cases h : x.Score < y.Score <;> simp [h, ih]

/-- The full double loop sorting FuzzySearch results by descending score. -/
def exchangeSort (l : List SearchResult) : List SearchResult :=
  match l with
  | [] => []
  | x :: xs =>
    let r := exchangePass x xs
    r.1 :: exchangeSort r.2
termination_by l.length
decreasing_by
  simp [exchangePass_length]

/-- FuzzySearch from fuzzy.go: keep candidates with positive score (in input
order), then sort by descending score with the exchange double loop. -/
def FuzzySearch (pattern : String) (texts : List String) : List SearchResult :=
  exchangeSort (texts.filterMap (fun text =>
    let score := FuzzyMatch pattern text
    if 0 < score then some ⟨text, score⟩ else none))

/-- unicode.IsLetter || unicode.IsDigit, restricted to ASCII. -/
def isWordChar (c : Char) : Bool := c.isAlpha || c.isDigit

/-- The accumulator loop of SplitWords: `acc` holds the runes of the word
being built, in reverse. Completed words are lowercased. -/
def splitWordsGo (acc : List Char) : List Char → List String
  | [] => if acc.isEmpty then [] else [(acc.reverse.map Char.toLower).asString]
  | c :: rest =>
    if isWordChar c then splitWordsGo (c :: acc) rest
    else if acc.isEmpty then splitWordsGo [] rest
    else (acc.reverse.map Char.toLower).asString :: splitWordsGo [] rest

/-- SplitWords from fuzzy.go: maximal alphanumeric runs, lowercased. -/
def SplitWords (text : String) : List String := splitWordsGo [] text.toList

/-- Char-list version of Go bytes.HasPrefix / list prefix test. -/
def hasPrefixChars : List Char → List Char → Bool
  | [], _ => true
  | _ :: _, [] => false
  | a :: as, b :: bs => a == b && hasPrefixChars as bs

/-- Char-list version of strings.Contains: does `hay` contain `sub`
contiguously? -/
def containsChars (sub : List Char) : List Char → Bool
  | [] => sub.isEmpty
  | c :: rest => hasPrefixChars sub (c :: rest) || containsChars sub rest

/-- strings.Contains(s, sub). -/
def goContains (s sub : String) : Bool := containsChars sub.toList s.toList

/-- strings.ToLower (ASCII model). -/
def goToLower (s : String) : String := (s.toList.map Char.toLower).asString

/-- strings.EqualFold (ASCII model): case-insensitive equality. -/
def goEqualFold (a b : String) : Bool := goToLower a == goToLower b

/-- strings.TrimSpace (ASCII whitespace model). -/
def goTrimSpace (s : String) : String :=
  ((s.toList.dropWhile Char.isWhitespace).reverse.dropWhile Char.isWhitespace).reverse.asString

/-- ContainsAnyWord from fuzzy.go: some search term and some text word
contain one another (in either direction). -/
def ContainsAnyWord (searchTerms textWords : List String) : Bool :=
  searchTerms.any (fun search =>
    textWords.any (fun word => goContains word search || goContains search word))

/-! ## internal/ui/notes_list.go -/

/-- NotesListModel: the fields the search/filter state machine touches
(view-only fields such as width/height/loaded/selectedNote are omitted).
The cursor is a Go `int`, hence `Int`. -/
structure NotesListModel where
  allNotes : List Note
  filteredNotes : List Note
  cursor : Int
  searchQuery : String
  searchMode : Bool
deriving Repr, DecidableEq

/-- filterNotes from notes_list.go. Note that the empty-query branch returns
early, before the out-of-bounds cursor reset at the end of the function. -/
def NotesListModel.filterNotes (m : NotesListModel) : NotesListModel :=
  if m.searchQuery = "" then
    { m with filteredNotes := m.allNotes }
  else
    let searchTerms := SplitWords m.searchQuery
    let filtered := m.allNotes.filter (fun note =>
      ContainsAnyWord searchTerms (SplitWords note.Title) ||
      ContainsAnyWord searchTerms (SplitWords note.Content))
    { m with
      filteredNotes := filtered,
      cursor := if (filtered.length : Int) ≤ m.cursor then 0 else m.cursor }

/-- setSearchMode from notes_list.go: entering search resets the cursor;
leaving search clears the query and re-filters. -/
def NotesListModel.setSearchMode (m : NotesListModel) (enabled : Bool) : NotesListModel :=
  if enabled then { m with searchMode := true, cursor := 0 }
  else NotesListModel.filterNotes { m with searchMode := false, searchQuery := "" }

/-- The tea.KeyMsg branch of Update in notes_list.go, keyed by msg.String().
The ctrl+s toggle runs first and the search-mode test below sees the toggled
flag, exactly as in the source. Browse-mode "n"/"e"/"d" do not change any of
the modelled fields (they select a note or issue store commands), so they
fall through to the identity here; the delete-reload path is modelled by
`notesLoaded` below. -/
def NotesListModel.handleKey (m : NotesListModel) (key : String) : NotesListModel :=
  let m := if key = "ctrl+s" then m.setSearchMode (!m.searchMode) else m
  if m.searchMode then
    if key = "escape" then m.setSearchMode false
    else if key = "backspace" then
      if 0 < m.searchQuery.length then
        NotesListModel.filterNotes { m with searchQuery := m.searchQuery.toList.dropLast.asString }
      else m
    else if key = "enter" then m.setSearchMode false
    else if key.utf8ByteSize = 1 then
      NotesListModel.filterNotes { m with searchQuery := m.searchQuery ++ key }
    else m
  else
    if key = "up" ∨ key = "k" then
      if 0 < m.cursor then { m with cursor := m.cursor - 1 } else m
    else if key = "down" ∨ key = "j" then
      if m.cursor < (m.filteredNotes.length : Int) - 1 then { m with cursor := m.cursor + 1 } else m
    else m

/-- The notesLoadedMsg branch of Update: install the loaded notes and re-run
the current filter (this is the path taken after a delete reloads the list). -/
def NotesListModel.notesLoaded (m : NotesListModel) (notes : List Note) : NotesListModel :=
  NotesListModel.filterNotes { m with allNotes := notes }

/-! ## internal/storage (service.go + note_repo.go + tag_repo.go) -/

/-- A persisted note row (notes table). -/
structure StoredNote where
  ID : Int
  Title : String
  Content : String
deriving Repr, DecidableEq

/-- The relational store: notes, the global tag vocabulary, and the
note_tags join relation, with the next auto-increment ids. -/
structure Store where
  notes : List StoredNote
  tags : List Tag
  noteTags : List (Int × Int)
  nextNoteId : Int
  nextTagId : Int
deriving Repr, DecidableEq

/-- Service.CreateNote: insert a row and return it with its assigned id. -/
def Store.createNote (st : Store) (title content : String) : Store × StoredNote :=
  let note : StoredNote := ⟨st.nextNoteId, title, content⟩
  ({ st with notes := st.notes ++ [note], nextNoteId := st.nextNoteId + 1 }, note)

/-- Service.UpdateNote: overwrite title/content in place; the Bool is
success (false models the not-found error). -/
def Store.updateNote (st : Store) (note : StoredNote) : Store × Bool :=
  if st.notes.any (fun n => n.ID == note.ID) then
    ({ st with notes := st.notes.map (fun n => if n.ID == note.ID then note else n) }, true)
  else (st, false)

/-- Service.GetOrCreateTag: look the name up (SQL `name = ?`, exact match);
create it with the next id when absent. -/
def Store.getOrCreateTag (st : Store) (name : String) : Store × Tag :=
  match st.tags.find? (fun t => t.Name == name) with
  | some t => (st, t)
  | none =>
    let t : Tag := ⟨st.nextTagId, name⟩
    ({ st with tags := st.tags ++ [t], nextTagId := st.nextTagId + 1 }, t)

/-- Service.AddTagToNote: get-or-create the tag by name, then INSERT OR
IGNORE the association (idempotent). -/
def Store.addTagToNote (st : Store) (noteID : Int) (tagName : String) : Store :=
  let r := st.getOrCreateTag tagName
  if r.1.noteTags.any (fun a => a == (noteID, r.2.ID)) then r.1
  else { r.1 with noteTags := r.1.noteTags ++ [(noteID, r.2.ID)] }

/-- Service.RemoveTagFromNote: delete the association row; the not-found
error it reports when absent is swallowed by the caller, so the state
effect is just the deletion. -/
def Store.removeTagFromNote (st : Store) (noteID tagID : Int) : Store :=
  { st with noteTags := st.noteTags.filter (fun a => !(a == (noteID, tagID))) }

/-! ## internal/ui/note_editor.go -/

/-- NoteEditorModel: the fields of the editor state machine relevant to tag
entry and save (focus and preview fields are orthogonal and omitted).
suggestionCursor is a Go `int`. -/
structure NoteEditorModel where
  note : Option Note
  title : String
  content : String
  mode : String
  tags : List Tag
  tagInput : String
  availableTags : List Tag
  tagSuggestions : List String
  showSuggestions : Bool
  suggestionCursor : Int
deriving Repr, DecidableEq

/-- updateTagSuggestions from note_editor.go. Below the 2-byte threshold the
function clears the list and hides it (leaving the cursor untouched);
otherwise it collects every available tag whose lowercased name contains the
lowercased buffer and whose ID does not equal the ID of an attached tag,
shows the list iff non-empty, and resets the cursor. -/
def NoteEditorModel.updateTagSuggestions (m : NoteEditorModel) : NoteEditorModel :=
  if m.tagInput.utf8ByteSize < 2 then
    { m with tagSuggestions := [], showSuggestions := false }
  else
    let suggestions := (m.availableTags.filter (fun tag =>
      goContains (goToLower tag.Name) (goToLower m.tagInput) &&
      !(m.tags.any (fun existingTag => existingTag.ID == tag.ID)))).map Tag.Name
    { m with
      tagSuggestions := suggestions,
      showSuggestions := 0 < suggestions.length,
      suggestionCursor := 0 }

/-- addTag from note_editor.go: trim, drop blanks, drop case-insensitive
duplicates of attached tags, else append `models.Tag{Name: tagName}` (zero
ID) and clear the input and the suggestion state. -/
def NoteEditorModel.addTag (m : NoteEditorModel) (tagName : String) : NoteEditorModel :=
  let tagName := goTrimSpace tagName
  if tagName = "" then m
  else if m.tags.any (fun tag => goEqualFold tag.Name tagName) then m
  else
    { m with
      tags := m.tags ++ [⟨0, tagName⟩],
      tagInput := "",
      showSuggestions := false,
      suggestionCursor := 0 }

/-- handleTagTextInput from note_editor.go: backspace truncates the buffer
(without recomputing suggestions), enter and space commit the buffer as a
tag when non-empty, and a single-byte key appends and recomputes
suggestions. -/
def NoteEditorModel.handleTagTextInput (m : NoteEditorModel) (key : String) : NoteEditorModel :=
  if key = "backspace" then
    if 0 < m.tagInput.length then { m with tagInput := m.tagInput.toList.dropLast.asString }
    else m
  else if key = "enter" then
    if 0 < m.tagInput.length then m.addTag m.tagInput else m
  else if key = " " then
    if 0 < m.tagInput.length then m.addTag m.tagInput else m
  else if key.utf8ByteSize = 1 then
    NoteEditorModel.updateTagSuggestions { m with tagInput := m.tagInput ++ key }
  else m

/-- handleTagInput from note_editor.go: with suggestions showing, up/down
move the bounded cursor, enter commits the highlighted suggestion, and any
other key dismisses the popup and is re-routed to the text handler; with no
suggestions showing, keys go straight to the text handler. The Go indexing
tagSuggestions[suggestionCursor] is guarded by cursor < len and the cursor
is never negative, modelled here with getD. -/
def NoteEditorModel.handleTagInput (m : NoteEditorModel) (key : String) : NoteEditorModel :=
  if m.showSuggestions then
    if key = "up" then
      if 0 < m.suggestionCursor then { m with suggestionCursor := m.suggestionCursor - 1 }
      else m
    else if key = "down" then
      if m.suggestionCursor < (m.tagSuggestions.length : Int) - 1 then
        { m with suggestionCursor := m.suggestionCursor + 1 }
      else m
    else if key = "enter" then
      let m1 :=
        if m.suggestionCursor < (m.tagSuggestions.length : Int) then
          m.addTag (m.tagSuggestions.getD m.suggestionCursor.toNat "")
        else m
      { m1 with showSuggestions := false, suggestionCursor := 0 }
    else
      NoteEditorModel.handleTagTextInput
        { m with showSuggestions := false, suggestionCursor := 0 } key
  else m.handleTagTextInput key

/-- The store calls saveNote can issue, in order, for the op trace. -/
inductive StoreOp where
  | createNote (title content : String)
  | updateNote (note : StoredNote)
  | removeTagFromNote (noteID tagID : Int)
  | addTagToNote (noteID : Int) (tagName : String)
deriving Repr, DecidableEq

/-- The observable outcome of saveNote: the editor state (Go mutates
m.note in place in edit mode), the store state, the trace of store calls
made, and whether the editor handed control back to the notes list. -/
structure SaveOutcome where
  editor : NoteEditorModel
  store : Store
  ops : List StoreOp
  switchedToList : Bool
deriving Repr, DecidableEq

/-- saveNote from note_editor.go. Empty trimmed title: silent no-op. Create
mode: insert, then add every buffer tag. Edit mode: overwrite title/content
(the removal loop that the comment says clears the existing tags iterates
m.tags, the CURRENT buffer tags, exactly as in the source), then re-add
every buffer tag by name; association errors are swallowed. -/
def NoteEditorModel.saveNote (m : NoteEditorModel) (st : Store) : SaveOutcome :=
  if goTrimSpace m.title = "" then
    { editor := m, store := st, ops := [], switchedToList := false }
  else if m.mode = "create" then
    let r := st.createNote m.title m.content
    let note := r.2
    let st2 := m.tags.foldl (fun acc tag => acc.addTagToNote note.ID tag.Name) r.1
    { editor := m,
      store := st2,
      ops := StoreOp.createNote m.title m.content ::
        m.tags.map (fun tag => StoreOp.addTagToNote note.ID tag.Name),
      switchedToList := true }
  else
    match m.note with
    | none => { editor := m, store := st, ops := [], switchedToList := true }
    | some n =>
      let updated : StoredNote := ⟨n.ID, m.title, m.content⟩
      let r := st.updateNote updated
      if r.2 = false then
        { editor := { m with note := some { n with Title := m.title, Content := m.content } },
          store := r.1,
          ops := [StoreOp.updateNote updated],
          switchedToList := false }
      else
        let st2 := m.tags.foldl (fun acc tag => acc.removeTagFromNote n.ID tag.ID) r.1
        let st3 := m.tags.foldl (fun acc tag => acc.addTagToNote n.ID tag.Name) st2
        { editor := { m with note := some { n with Title := m.title, Content := m.content } },
          store := st3,
          ops := StoreOp.updateNote updated ::
            (m.tags.map (fun tag => StoreOp.removeTagFromNote n.ID tag.ID) ++
             m.tags.map (fun tag => StoreOp.addTagToNote n.ID tag.Name)),
          switchedToList := true }

/-! ## Greedy subsequence lemmas for FuzzyMatch -/

/-- How many pattern characters the greedy left-to-right scan consumes. -/
def greedyConsume : List Char → List Char → Nat
  | _, [] => 0
  | [], _ :: _ => 0
  | q :: qs, c :: t => if q = c then 1 + greedyConsume qs t else greedyConsume (q :: qs) t

theorem greedyConsume_nil (t : List Char) : greedyConsume [] t = 0 := by
  cases t <;> rfl

theorem greedyConsume_le (ps t : List Char) : greedyConsume ps t ≤ ps.length := by
  induction t generalizing ps with
  | nil => cases ps <;> simp [greedyConsume]
  | cons c t ih =>
    cases ps with
    | nil => simp [greedyConsume]
    | cons q qs =>
      by_cases h : q = c
      · have := ih qs
        simp only [greedyConsume, if_pos h, List.length_cons]
        omega
      · have := ih (q :: qs)
        simp only [greedyConsume, if_neg h]
        exact this

/-- The greedy scan consumes the whole pattern exactly when the pattern is a
subsequence of the text. -/
theorem greedyConsume_eq_length_iff (ps t : List Char) :
    greedyConsume ps t = ps.length ↔ ps.Sublist t := by
  induction t generalizing ps with
  | nil =>
    cases ps with
    | nil => simp [greedyConsume]
    | cons q qs => simp [greedyConsume]
  | cons c t ih =>
    cases ps with
    | nil => simp [greedyConsume]
    | cons q qs =>
      by_cases h : q = c
      · subst h
        constructor
        · intro he
          simp [greedyConsume] at he
          exact List.Sublist.cons₂ q ((ih qs).1 (by omega))
        · intro hs
          have hqs : qs.Sublist t := by
            cases hs with
            | cons _ hsub => exact (List.sublist_cons_self q qs).trans hsub
            | cons₂ _ hsub => exact hsub
          simp [greedyConsume]
          have := (ih qs).2 hqs
          omega
      · constructor
        · intro he
          simp only [greedyConsume, if_neg h] at he
          exact List.Sublist.cons c ((ih (q :: qs)).1 he)
        · intro hs
          have hsub : (q :: qs).Sublist t := by
            cases hs with
            | cons _ hsub => exact hsub
            | cons₂ _ _ => exact absurd rfl h
          simp only [greedyConsume, if_neg h]
          exact (ih (q :: qs)).2 hsub

/-- The pattern index computed by the scan loop is the number of greedily
consumed characters of the remaining pattern. -/
theorem fuzzyLoop_fst (p : List Char) :
    ∀ (t : List Char) (pIdx score consec : Nat),
      (fuzzyLoop p t pIdx score consec).1 = pIdx + greedyConsume (p.drop pIdx) t := by
  intro t
  induction t with
  | nil =>
    intro pIdx score consec
    simp [fuzzyLoop, greedyConsume]
  | cons c rest ih =>
    intro pIdx score consec
    by_cases h : pIdx < p.length ∧ p.getD pIdx c = c
    · obtain ⟨h1, h2⟩ := h
      have hget : p.get ⟨pIdx, h1⟩ = c := by
        rw [← h2, List.getD_eq_getElem _ _ h1]
        simp
      have hdrop : p.drop pIdx = p.get ⟨pIdx, h1⟩ :: p.drop (pIdx + 1) := by
        rw [List.drop_eq_getElem_cons h1]
        simp
      rw [fuzzyLoop, if_pos ⟨h1, h2⟩, ih (pIdx + 1)]
      rw [hdrop, greedyConsume, if_pos hget]
      omega
    · rw [fuzzyLoop, if_neg h, ih pIdx]
      by_cases h1 : pIdx < p.length
      · have h2 : ¬ p.getD pIdx c = c := fun hc => h ⟨h1, hc⟩
        have hget : ¬ p.get ⟨pIdx, h1⟩ = c := by
          intro hc
          apply h2
          rw [List.getD_eq_getElem _ _ h1]
          simpa using hc
        have hdrop : p.drop pIdx = p.get ⟨pIdx, h1⟩ :: p.drop (pIdx + 1) := by
          rw [List.drop_eq_getElem_cons h1]
          simp
        rw [hdrop, greedyConsume, if_neg hget, ← hdrop]
      · have hnil : p.drop pIdx = [] := List.drop_eq_nil_of_le (by omega)
        simp [hnil, greedyConsume_nil]

theorem fuzzyLoop_snd_le (p : List Char) :
    ∀ (t : List Char) (pIdx score consec : Nat),
      score ≤ (fuzzyLoop p t pIdx score consec).2 := by
  intro t
  induction t with
  | nil => intro pIdx score consec; simp [fuzzyLoop]
  | cons c rest ih =>
    intro pIdx score consec
    by_cases h : pIdx < p.length ∧ p.getD pIdx c = c
    · rw [fuzzyLoop, if_pos h]
      exact le_trans (by omega) (ih (pIdx + 1) (score + 10 + consec * 2) (consec + 1))
    · rw [fuzzyLoop, if_neg h]
      exact ih pIdx score 0

/-- Whenever the scan makes progress on the pattern, at least 10 points are
accumulated on top of the incoming score. -/
theorem fuzzyLoop_progress_score (p : List Char) :
    ∀ (t : List Char) (pIdx score consec : Nat),
      pIdx < (fuzzyLoop p t pIdx score consec).1 →
      score + 10 ≤ (fuzzyLoop p t pIdx score consec).2 := by
  intro t
  induction t with
  | nil =>
    intro pIdx score consec hlt
    simp [fuzzyLoop] at hlt
  | cons c rest ih =>
    intro pIdx score consec hlt
    by_cases h : pIdx < p.length ∧ p.getD pIdx c = c
    · rw [fuzzyLoop, if_pos h]
      exact le_trans (by omega) (fuzzyLoop_snd_le p rest (pIdx + 1) (score + 10 + consec * 2) (consec + 1))
    · rw [fuzzyLoop, if_neg h] at hlt ⊢
      exact ih pIdx score 0 hlt

/-- For a non-empty pattern, FuzzyMatch is the scan score plus the length
bonus when the greedy scan consumed the whole pattern, else 0. -/
theorem fuzzyMatch_eq_of_ne (pattern text : String) (hp : ¬ pattern = "") :
    FuzzyMatch pattern text =
      (if greedyConsume (pattern.toList.map Char.toLower) (text.toList.map Char.toLower)
          = (pattern.toList.map Char.toLower).length
       then (fuzzyLoop (pattern.toList.map Char.toLower)
              (text.toList.map Char.toLower) 0 0 0).2 +
            (if 0 < (text.toList.map Char.toLower).length
             then 100 / (text.toList.map Char.toLower).length else 0)
       else 0) := by
  have hfst := fuzzyLoop_fst (pattern.toList.map Char.toLower)
    (text.toList.map Char.toLower) 0 0 0
  simp only [List.drop_zero, Nat.zero_add] at hfst
  unfold FuzzyMatch
  rw [if_neg hp]
  simp only [hfst]

/-- C6: the fuzzy score is 0 whenever the lowercased pattern is not a
subsequence of the lowercased candidate, and strictly positive whenever a
non-empty pattern is such a subsequence (the greedy scan consumes the full
pattern exactly when a subsequence embedding exists). -/
theorem fuzzyMatch_subsequence_spec (pattern text : String) :
    (¬ List.Sublist (pattern.toList.map Char.toLower) (text.toList.map Char.toLower) →
        FuzzyMatch pattern text = 0) ∧
    (pattern ≠ "" →
      List.Sublist (pattern.toList.map Char.toLower) (text.toList.map Char.toLower) →
        0 < FuzzyMatch pattern text) := by
  constructor
  · intro hns
    have hp : ¬ pattern = "" := by
      intro h0
      apply hns
      subst h0
      exact List.nil_sublist _
    have hne : ¬ greedyConsume (pattern.toList.map Char.toLower)
        (text.toList.map Char.toLower) = (pattern.toList.map Char.toLower).length :=
      fun he => hns ((greedyConsume_eq_length_iff _ _).1 he)
    rw [fuzzyMatch_eq_of_ne pattern text hp, if_neg hne]
  · intro hp hs
    have hcons : greedyConsume (pattern.toList.map Char.toLower)
        (text.toList.map Char.toLower) = (pattern.toList.map Char.toLower).length :=
      (greedyConsume_eq_length_iff _ _).2 hs
    have htl : pattern.toList ≠ [] := by
      intro h0
      apply hp
      cases pattern with
      | mk data =>
        simp [String.toList] at h0
        simp [h0]
    have hfst := fuzzyLoop_fst (pattern.toList.map Char.toLower)
      (text.toList.map Char.toLower) 0 0 0
    simp only [List.drop_zero, Nat.zero_add] at hfst
    have hlen : 0 < (pattern.toList.map Char.toLower).length := by
      rw [List.length_map]
      exact List.length_pos.mpr htl
    have hlt : 0 < (fuzzyLoop (pattern.toList.map Char.toLower)
        (text.toList.map Char.toLower) 0 0 0).1 := by
      rw [hfst, hcons]
      exact hlen
    have h10 := fuzzyLoop_progress_score (pattern.toList.map Char.toLower)
      (text.toList.map Char.toLower) 0 0 0 hlt
    rw [fuzzyMatch_eq_of_ne pattern text hp, if_pos hcons]
    exact Nat.lt_of_lt_of_le (by omega) (Nat.le_add_right _ _)

/-- Witness for fuzzyMatch_subsequence_spec at concrete inputs. -/
theorem fuzzyMatch_subsequence_spec_witness :
    FuzzyMatch "xyz" "abc" = 0 ∧ 0 < FuzzyMatch "ac" "abc" :=
  ⟨(fuzzyMatch_subsequence_spec "xyz" "abc").1 (by decide),
   (fuzzyMatch_subsequence_spec "ac" "abc").2 (by decide) (by decide)⟩

/-! ## Exchange sort lemmas for FuzzySearch -/

theorem exchangePass_fst_ge (x : SearchResult) (l : List SearchResult) :
    x.Score ≤ (exchangePass x l).1.Score := by
  induction l generalizing x with
  | nil => simp [exchangePass]
  | cons y ys ih =>
    unfold exchangePass
    by_cases h : x.Score < y.Score
    · simp only [if_pos h]
      exact le_trans (le_of_lt h) (ih y)
    · simp only [if_neg h]
      exact ih x

/-- After one pass, the extracted element has the maximal score. -/
theorem exchangePass_max (x : SearchResult) (l : List SearchResult) :
    ∀ z ∈ (exchangePass x l).2, z.Score ≤ (exchangePass x l).1.Score := by
  induction l generalizing x with
  | nil => simp [exchangePass]
  | cons y ys ih =>
    intro z hz
    unfold exchangePass at hz ⊢
    by_cases h : x.Score < y.Score
    · simp only [if_pos h] at hz ⊢
      rcases List.mem_cons.mp hz with rfl | hz2
      · exact le_trans (le_of_lt h) (exchangePass_fst_ge y ys)
      · exact ih y z hz2
    · simp only [if_neg h] at hz ⊢
      rcases List.mem_cons.mp hz with rfl | hz2
      · exact le_trans (le_of_not_lt h) (exchangePass_fst_ge x ys)
      · exact ih x z hz2

theorem exchangePass_perm (x : SearchResult) (l : List SearchResult) :
    List.Perm (x :: l) ((exchangePass x l).1 :: (exchangePass x l).2) := by
  induction l generalizing x with
  | nil => simp [exchangePass]
  | cons y ys ih =>
    unfold exchangePass
    by_cases h : x.Score < y.Score
    · simp only [if_pos h]
      exact ((ih y).cons x).trans (List.Perm.swap _ _ _)
    · simp only [if_neg h]
      exact ((List.Perm.swap _ _ _).trans ((ih x).cons y)).trans (List.Perm.swap _ _ _)

theorem exchangeSort_perm : ∀ l : List SearchResult, List.Perm (exchangeSort l) l
  | [] => by simp [exchangeSort]
  | x :: xs => by
    rw [exchangeSort]
    exact ((exchangeSort_perm (exchangePass x xs).2).cons
      (exchangePass x xs).1).trans (exchangePass_perm x xs).symm
termination_by l => l.length
decreasing_by simp [exchangePass_length]

theorem exchangeSort_sorted : ∀ l : List SearchResult,
    (exchangeSort l).Pairwise (fun a b => b.Score ≤ a.Score)
  | [] => by simp [exchangeSort]
  | x :: xs => by
    rw [exchangeSort]
    refine List.Pairwise.cons ?_ (exchangeSort_sorted (exchangePass x xs).2)
    intro b hb
    exact exchangePass_max x xs b ((exchangeSort_perm (exchangePass x xs).2).mem_iff.1 hb)
termination_by l => l.length
decreasing_by simp [exchangePass_length]

/-- C10: FuzzySearch returns exactly the candidates with strictly positive
fuzzy score, each paired with that score, ordered non-increasingly by
score. -/
theorem fuzzySearch_spec (pattern : String) (texts : List String) :
    (∀ r ∈ FuzzySearch pattern texts,
        0 < r.Score ∧ r.Score = FuzzyMatch pattern r.Text ∧ r.Text ∈ texts) ∧
    (∀ text ∈ texts, 0 < FuzzyMatch pattern text →
        (⟨text, FuzzyMatch pattern text⟩ : SearchResult) ∈ FuzzySearch pattern texts) ∧
    (FuzzySearch pattern texts).Pairwise (fun a b => b.Score ≤ a.Score) := by
  have hperm := exchangeSort_perm (texts.filterMap (fun text =>
    let score := FuzzyMatch pattern text
    if 0 < score then some ⟨text, score⟩ else none))
  refine ⟨?_, ?_, ?_⟩
  · intro r hr
    have hmem : r ∈ texts.filterMap (fun text =>
        let score := FuzzyMatch pattern text
        if 0 < score then some ⟨text, score⟩ else none) := hperm.mem_iff.1 hr
    rcases List.mem_filterMap.1 hmem with ⟨a, ha, hfa⟩
    by_cases h : 0 < FuzzyMatch pattern a
    · simp only [if_pos h] at hfa
      cases Option.some.inj hfa
      exact ⟨h, rfl, ha⟩
    · simp only [if_neg h] at hfa
      exact absurd hfa (Option.noConfusion)
  · intro text ht hpos
    apply hperm.mem_iff.2
    apply List.mem_filterMap.2
    exact ⟨text, ht, by simp [hpos]⟩
  · exact exchangeSort_sorted _

/-- Witness for fuzzySearch_spec at concrete inputs. -/
theorem fuzzySearch_spec_witness :
    (⟨"ab", FuzzyMatch "ab" "ab"⟩ : SearchResult) ∈ FuzzySearch "ab" ["ab", "zz"] :=
  (fuzzySearch_spec "ab" ["ab", "zz"]).2.1 "ab" (by decide) (by decide)

/-! ## Substring-relation lemmas for the notes filter -/

theorem hasPrefixChars_iff (sub l : List Char) :
    hasPrefixChars sub l = true ↔ ∃ t, l = sub ++ t := by
  induction sub generalizing l with
  | nil => simp [hasPrefixChars]
  | cons a as ih =>
    cases l with
    | nil => simp [hasPrefixChars]
    | cons b bs =>
      simp only [hasPrefixChars, Bool.and_eq_true, beq_iff_eq, ih,
        List.cons_append, List.cons.injEq]
      constructor
      · rintro ⟨h1, t, h2⟩
        exact ⟨t, h1.symm, h2⟩
      · rintro ⟨t, h1, h2⟩
        exact ⟨h1.symm, t, h2⟩

theorem containsChars_iff (sub hay : List Char) :
    containsChars sub hay = true ↔ ∃ pre post, hay = pre ++ sub ++ post := by
  induction hay with
  | nil =>
    simp only [containsChars, List.isEmpty_iff]
    constructor
    · intro h
      exact ⟨[], [], by simp [h]⟩
    · rintro ⟨pre, post, h⟩
      rcases List.append_eq_nil.mp (List.append_eq_nil.mp h.symm).1 with ⟨-, h2⟩
      exact h2
  | cons c rest ih =>
    simp only [containsChars, Bool.or_eq_true, hasPrefixChars_iff, ih]
    constructor
    · rintro (⟨t, ht⟩ | ⟨pre, post, hpp⟩)
      · exact ⟨[], t, by simp [ht]⟩
      · exact ⟨c :: pre, post, by simp [hpp]⟩
    · rintro ⟨pre, post, hpp⟩
      cases pre with
      | nil =>
        exact Or.inl ⟨post, by simpa using hpp⟩
      | cons p ps =>
        simp only [List.cons_append, List.cons.injEq] at hpp
        exact Or.inr ⟨ps, post, hpp.2⟩

/-- The claim-level substring relation: a occurs contiguously inside b. -/
def SubstringOf (a b : String) : Prop :=
  ∃ pre post : List Char, b.toList = pre ++ a.toList ++ post

theorem goContains_iff (s sub : String) :
    goContains s sub = true ↔ SubstringOf sub s :=
  containsChars_iff sub.toList s.toList

instance (a b : String) : Decidable (SubstringOf a b) :=
  decidable_of_iff (goContains b a = true) (goContains_iff b a)

/-- The claim-level predicate on a note: some query token and some token of
the note's title or content stand in a substring relation in either
direction. -/
def noteMatchesSpec (query : String) (note : Note) : Prop :=
  ∃ s ∈ SplitWords query, ∃ w ∈ SplitWords note.Title ++ SplitWords note.Content,
    SubstringOf s w ∨ SubstringOf w s

instance (query : String) (note : Note) : Decidable (noteMatchesSpec query note) := by
  unfold noteMatchesSpec
  infer_instance

theorem containsAnyWord_iff (terms words : List String) :
    ContainsAnyWord terms words = true ↔
      ∃ s ∈ terms, ∃ w ∈ words, SubstringOf s w ∨ SubstringOf w s := by
  unfold ContainsAnyWord
  simp only [List.any_eq_true, Bool.or_eq_true, goContains_iff]

/-- The note predicate used by filterNotes agrees with the claim-level
predicate. -/
theorem codePred_eq_spec (query : String) (note : Note) :
    (ContainsAnyWord (SplitWords query) (SplitWords note.Title) ||
     ContainsAnyWord (SplitWords query) (SplitWords note.Content)) =
      decide (noteMatchesSpec query note) := by
  have hiff : (ContainsAnyWord (SplitWords query) (SplitWords note.Title) ||
      ContainsAnyWord (SplitWords query) (SplitWords note.Content)) = true ↔
      noteMatchesSpec query note := by
    unfold noteMatchesSpec
    simp only [Bool.or_eq_true, containsAnyWord_iff, List.mem_append]
    constructor
    · rintro (⟨s, hs, w, hw, hrel⟩ | ⟨s, hs, w, hw, hrel⟩)
      · exact ⟨s, hs, w, Or.inl hw, hrel⟩
      · exact ⟨s, hs, w, Or.inr hw, hrel⟩
    · rintro ⟨s, hs, w, hw | hw, hrel⟩
      · exact Or.inl ⟨s, hs, w, hw, hrel⟩
      · exact Or.inr ⟨s, hs, w, hw, hrel⟩
  by_cases hnm : noteMatchesSpec query note
  · rw [decide_eq_true hnm]
    exact hiff.mpr hnm
  · rw [decide_eq_false hnm]
    exact Bool.eq_false_iff.mpr (fun hc => hnm (hiff.mp hc))

/-- C5: filtering with an empty query yields the full note set in order;
filtering with a non-empty query yields exactly the notes, in original
relative order, where some query token and some title/content token stand
in a substring relation in either direction. -/
theorem filterNotes_spec (m : NotesListModel) :
    (m.searchQuery = "" → m.filterNotes.filteredNotes = m.allNotes) ∧
    (m.searchQuery ≠ "" → m.filterNotes.filteredNotes =
      m.allNotes.filter (fun note => decide (noteMatchesSpec m.searchQuery note))) := by
  constructor
  · intro h
    unfold NotesListModel.filterNotes
    rw [if_pos h]
  · intro h
    unfold NotesListModel.filterNotes
    rw [if_neg h]
    show m.allNotes.filter (fun note =>
      ContainsAnyWord (SplitWords m.searchQuery) (SplitWords note.Title) ||
      ContainsAnyWord (SplitWords m.searchQuery) (SplitWords note.Content)) = _
    exact List.filter_congr (fun note _ => codePred_eq_spec m.searchQuery note)

/-- Notes used in concrete scenarios. -/
def noteAlpha : Note := ⟨1, "Grocery List", "", []⟩

def noteBeta : Note := ⟨2, "Trip Planning", "", []⟩

/-- Witness for filterNotes_spec at concrete inputs. -/
theorem filterNotes_spec_witness :
    (NotesListModel.filterNotes ⟨[noteAlpha, noteBeta], [], 0, "", false⟩).filteredNotes
        = [noteAlpha, noteBeta] ∧
    (NotesListModel.filterNotes ⟨[noteAlpha, noteBeta], [], 0, "trip", false⟩).filteredNotes
        = [noteBeta] :=
  ⟨(filterNotes_spec _).1 rfl,
   ((filterNotes_spec _).2 (by decide)).trans (by decide)⟩

/-! ## Notes-list search transitions and cursor bounds -/

/-- A search-mode state with a live query whose filtered set is a strict
subset of the full set. -/
def listModelSearch : NotesListModel :=
  ⟨[noteAlpha, noteBeta], [noteBeta], 0, "trip", true⟩

/-- Counterexample to C2: confirming with enter does not retain the query
and the filtered set; it clears the query (and resets the filtered set to
all notes), exactly like cancel. -/
theorem search_confirm_retains_cex :
    ¬ ((listModelSearch.handleKey "enter").searchQuery = listModelSearch.searchQuery ∧
       (listModelSearch.handleKey "enter").filteredNotes = listModelSearch.filteredNotes) := by
  decide

/-- C2 (amended): confirming with enter returns the controller to browse
mode and, identically to cancel, clears the query and recomputes the
filtered set to show all notes; the cursor and the full set are unchanged. -/
theorem search_confirm_clears (m : NotesListModel) (hm : m.searchMode = true) :
    (m.handleKey "enter").searchMode = false ∧
    (m.handleKey "enter").searchQuery = "" ∧
    (m.handleKey "enter").filteredNotes = m.allNotes ∧
    (m.handleKey "enter").allNotes = m.allNotes ∧
    (m.handleKey "enter").cursor = m.cursor := by
  simp [NotesListModel.handleKey, hm, NotesListModel.setSearchMode,
    NotesListModel.filterNotes]

/-- Witness for search_confirm_clears. -/
theorem search_confirm_clears_witness :
    (NotesListModel.handleKey ⟨[noteAlpha], [], 0, "zz", true⟩ "enter").searchMode = false ∧
    (NotesListModel.handleKey ⟨[noteAlpha], [], 0, "zz", true⟩ "enter").searchQuery = "" ∧
    (NotesListModel.handleKey ⟨[noteAlpha], [], 0, "zz", true⟩ "enter").filteredNotes = [noteAlpha] ∧
    (NotesListModel.handleKey ⟨[noteAlpha], [], 0, "zz", true⟩ "enter").allNotes = [noteAlpha] ∧
    (NotesListModel.handleKey ⟨[noteAlpha], [], 0, "zz", true⟩ "enter").cursor = 0 :=
  search_confirm_clears ⟨[noteAlpha], [], 0, "zz", true⟩ rfl

/-- C7: the empty-query path of filterNotes skips the cursor clamp. After
deleting the second of two notes (reload delivers one note) with the cursor
at 1 and no query, the cursor stays 1 although the filtered set has length
1 — outside the claimed [0, 0] bounds (a subsequent edit would index
filteredNotes[1] out of range). -/
theorem cursor_out_of_bounds_empty_query :
    (((NotesListModel.mk [noteAlpha, noteBeta] [noteAlpha, noteBeta] 1 "" false).notesLoaded
        [noteAlpha]).filteredNotes.length = 1) ∧
    (((NotesListModel.mk [noteAlpha, noteBeta] [noteAlpha, noteBeta] 1 "" false).notesLoaded
        [noteAlpha]).cursor = 1) := by
  decide

/-! ## Editor save -/

/-- C9: if the title trims to empty, saveNote is a silent no-op: no store
operation is issued, the store and the editor are unchanged, and control is
not handed back to the list. -/
theorem saveNote_empty_title_noop (m : NoteEditorModel) (st : Store)
    (h : goTrimSpace m.title = "") :
    m.saveNote st = ⟨m, st, [], false⟩ := by
  unfold NoteEditorModel.saveNote
  rw [if_pos h]

/-- A create-mode editor whose title is whitespace only. -/
def editorBlankTitle : NoteEditorModel :=
  ⟨none, "   ", "body", "create", [], "", [], [], false, 0⟩

/-- The empty store. -/
def storeEmpty : Store := ⟨[], [], [], 1, 1⟩

/-- Witness for saveNote_empty_title_noop. -/
theorem saveNote_empty_title_noop_witness :
    editorBlankTitle.saveNote storeEmpty = ⟨editorBlankTitle, storeEmpty, [], false⟩ :=
  saveNote_empty_title_noop editorBlankTitle storeEmpty (by decide)

/-- The note being edited in scenario C: it has tag "work" (id 1). -/
def editedNote : Note := ⟨1, "Old", "c", [⟨1, "work"⟩]⟩

/-- The editor after detaching "work" and attaching "urgent": the buffer
holds only the new tag, which carries the Go zero-value ID 0. -/
def editorDetachWork : NoteEditorModel :=
  ⟨some editedNote, "Old", "c", "edit", [⟨0, "urgent"⟩], "", [], [], false, 0⟩

/-- The store before the save: note 1 exists and is associated with tag
"work" (id 1). -/
def storeWithWork : Store :=
  ⟨[⟨1, "Old", "c"⟩], [⟨1, "work"⟩], [(1, 1)], 2, 2⟩

/-- C1: saving the edit leaves the "work" association (1, 1) in the store
and adds (1, 2) for the newly created "urgent" tag, so the note ends up
with BOTH tags — the removal loop iterates the current buffer tags (whose
"urgent" entry has ID 0), never the note's previously attached tags. -/
theorem saveNote_keeps_detached_tag :
    (editorDetachWork.saveNote storeWithWork).store.noteTags = [(1, 1), (1, 2)] ∧
    (editorDetachWork.saveNote storeWithWork).store.tags = [⟨1, "work"⟩, ⟨2, "urgent"⟩] ∧
    (editorDetachWork.saveNote storeWithWork).switchedToList = true := by
  decide

/-- A create-mode editor focused on tags with buffer "go"; the global
vocabulary holds "golang" (id 1) and nothing is attached yet. -/
def editorTagGo : NoteEditorModel :=
  ⟨none, "t", "", "create", [], "go", [⟨1, "golang"⟩], [], false, 0⟩

/-- C3: recomputing gives the suggestion ["golang"]; selecting it attaches
⟨0, "golang"⟩; retyping "g" then "o" computes ["golang"] again even though
the tag is attached — the exclusion compares IDs, and tags attached through
the editor carry ID 0 rather than the vocabulary ID 1. -/
theorem suggestions_keep_attached_tag :
    ((((editorTagGo.updateTagSuggestions).handleTagInput "enter").handleTagInput
        "g").handleTagInput "o").tags = [⟨0, "golang"⟩] ∧
    ((((editorTagGo.updateTagSuggestions).handleTagInput "enter").handleTagInput
        "g").handleTagInput "o").tagSuggestions = ["golang"] ∧
    ((((editorTagGo.updateTagSuggestions).handleTagInput "enter").handleTagInput
        "g").handleTagInput "o").showSuggestions = true := by
  decide

/-- A typing-state editor with buffer "gox" and no suggestions showing. -/
def editorTagGox : NoteEditorModel :=
  ⟨none, "", "", "create", [], "gox", [⟨1, "golang"⟩], [], false, 0⟩

/-- Counterexample to C4: backspace shortens "gox" to "go" but computes no
suggestions (the list stays empty and hidden), although recomputation on
"go" would produce ["golang"] — so the shortened length-2 buffer matching
an unattached global tag shows nothing. -/
theorem backspace_no_recompute_cex :
    (editorTagGox.handleTagTextInput "backspace").tagInput = "go" ∧
    (editorTagGox.handleTagTextInput "backspace").tagSuggestions = [] ∧
    (editorTagGox.handleTagTextInput "backspace").showSuggestions = false ∧
    ((editorTagGox.handleTagTextInput "backspace").updateTagSuggestions).tagSuggestions
        = ["golang"] := by
  decide

/-- C4 (amended): in typing state, backspace on a non-empty buffer deletes
the last character and changes nothing else — in particular it does NOT
recompute the tag suggestions (only character input does). -/
theorem backspace_deletes_last_only (m : NoteEditorModel) (h : 0 < m.tagInput.length) :
    m.handleTagTextInput "backspace"
      = { m with tagInput := m.tagInput.toList.dropLast.asString } := by
  unfold NoteEditorModel.handleTagTextInput
  simp [h]

/-- Witness for backspace_deletes_last_only. -/
theorem backspace_deletes_last_only_witness :
    editorTagGox.handleTagTextInput "backspace"
      = { editorTagGox with tagInput := "go" } :=
  (backspace_deletes_last_only editorTagGox (by decide)).trans (by decide)

/-! ## Editor suggestion invariant -/

/-- The suggestion invariant: a visible popup has a non-empty list and an
in-bounds cursor, and a buffer below the 2-byte threshold never has a
visible popup. -/
def editorInv (m : NoteEditorModel) : Prop :=
  (m.showSuggestions = true →
    m.tagSuggestions ≠ [] ∧ 0 ≤ m.suggestionCursor ∧
    m.suggestionCursor < (m.tagSuggestions.length : Int)) ∧
  (m.tagInput.utf8ByteSize < 2 → m.showSuggestions = false)

theorem updateTagSuggestions_inv (m : NoteEditorModel) :
    editorInv m.updateTagSuggestions := by
  unfold editorInv NoteEditorModel.updateTagSuggestions
  by_cases h : m.tagInput.utf8ByteSize < 2
  · simp [h]
  · simp only [if_neg h]
    constructor
    · intro hshow
      have hpos : 0 < ((m.availableTags.filter (fun tag =>
          goContains (goToLower tag.Name) (goToLower m.tagInput) &&
          !(m.tags.any (fun existingTag => existingTag.ID == tag.ID)))).map Tag.Name).length := by
        simpa using of_decide_eq_true hshow
      refine ⟨?_, by simp, by exact_mod_cast hpos⟩
      intro hnil
      rw [hnil] at hpos
      simp at hpos
    · intro hbyte
      exact absurd hbyte h

theorem addTag_inv (m : NoteEditorModel) (name : String) (hm : editorInv m) :
    editorInv (m.addTag name) := by
  unfold NoteEditorModel.addTag
  by_cases h1 : goTrimSpace name = ""
  · simpa [h1] using hm
  · by_cases h2 : m.tags.any (fun tag => goEqualFold tag.Name (goTrimSpace name))
    · simp only [if_neg h1, h2, if_pos]
      exact hm
    · simp only [if_neg h1, h2, Bool.false_eq_true, if_neg, if_false]
      unfold editorInv
      constructor
      · intro hs
        simp at hs
      · intro _
        rfl

theorem handleTagTextInput_inv (m : NoteEditorModel) (key : String)
    (hshow : m.showSuggestions = false) (hm : editorInv m) :
    editorInv (m.handleTagTextInput key) := by
  unfold NoteEditorModel.handleTagTextInput
  by_cases hb : key = "backspace"
  · by_cases hlen : 0 < m.tagInput.length <;>
      simp [hb, hlen, editorInv, hshow]
  · by_cases he : key = "enter"
    · by_cases hlen : 0 < m.tagInput.length
      · simpa [hb, he, hlen] using addTag_inv m m.tagInput hm
      · simpa [hb, he, hlen] using hm
    · by_cases hsp : key = " "
      · by_cases hlen : 0 < m.tagInput.length
        · simpa [hb, he, hsp, hlen] using addTag_inv m m.tagInput hm
        · simpa [hb, he, hsp, hlen] using hm
      · by_cases hbyte : key.utf8ByteSize = 1
        · simpa [hb, he, hsp, hbyte] using
            updateTagSuggestions_inv { m with tagInput := m.tagInput ++ key }
        · simpa [hb, he, hsp, hbyte] using hm

/-- C8 (amended): every tags-field keystroke preserves the invariant that
the visibility flag is true only when the suggestion list is non-empty with
the cursor a valid index, and that a buffer below the 2-character threshold
has no visible popup. (The list itself is cleared only when recomputation
runs on a short buffer; a hidden stale list may persist after backspace.) -/
theorem editor_suggestion_invariant (m : NoteEditorModel) (key : String)
    (hm : editorInv m) : editorInv (m.handleTagInput key) := by
  unfold NoteEditorModel.handleTagInput
  by_cases hshow : m.showSuggestions = true
  · rw [if_pos hshow]
    by_cases hup : key = "up"
    · rw [if_pos hup]
      obtain ⟨hne, hc0, hclt⟩ := hm.1 hshow
      by_cases hc : 0 < m.suggestionCursor
      · rw [if_pos hc]
        constructor
        · intro _
          refine ⟨hne, ?_, ?_⟩
          · show (0 : Int) ≤ m.suggestionCursor - 1
            omega
          · show m.suggestionCursor - 1 < (m.tagSuggestions.length : Int)
            omega
        · exact hm.2
      · rw [if_neg hc]
        exact hm
    · rw [if_neg hup]
      by_cases hdown : key = "down"
      · rw [if_pos hdown]
        obtain ⟨hne, hc0, hclt⟩ := hm.1 hshow
        by_cases hc : m.suggestionCursor < (m.tagSuggestions.length : Int) - 1
        · rw [if_pos hc]
          constructor
          · intro _
            refine ⟨hne, ?_, ?_⟩
            · show (0 : Int) ≤ m.suggestionCursor + 1
              omega
            · show m.suggestionCursor + 1 < (m.tagSuggestions.length : Int)
              omega
          · exact hm.2
        · rw [if_neg hc]
          exact hm
      · rw [if_neg hdown]
        by_cases hent : key = "enter"
        · rw [if_pos hent]
          constructor
          · intro hs
            simp at hs
          · intro _
            rfl
        · rw [if_neg hent]
          apply handleTagTextInput_inv
          · rfl
          · constructor
            · intro hs
              simp at hs
            · intro _
              rfl
  · have hsf : m.showSuggestions = false := by
      simpa using hshow
    rw [if_neg hshow]
    exact handleTagTextInput_inv m key hsf hm

/-- A visible-suggestions state with buffer "go" and list ["golang"]. -/
def editorSuggesting : NoteEditorModel :=
  ⟨none, "", "", "create", [], "go", [⟨1, "golang"⟩], ["golang"], true, 0⟩

/-- Counterexample to C8 as stated: after backspace from a suggesting state,
the buffer is "g" (shorter than 2 characters) and the popup is hidden, but
the suggestion list is NOT cleared: it still holds ["golang"]. -/
theorem stale_suggestions_after_backspace_cex :
    (editorSuggesting.handleTagInput "backspace").tagInput.length = 1 ∧
    (editorSuggesting.handleTagInput "backspace").tagSuggestions = ["golang"] ∧
    (editorSuggesting.handleTagInput "backspace").showSuggestions = false := by
  decide

/-- Witness for editor_suggestion_invariant. -/
theorem editor_suggestion_invariant_witness :
    editorInv (NoteEditorModel.handleTagInput
      ⟨none, "", "", "create", [], "", [⟨1, "golang"⟩], [], false, 0⟩ "g") :=
  editor_suggestion_invariant ⟨none, "", "", "create", [], "", [⟨1, "golang"⟩], [], false, 0⟩
    "g" (by constructor <;> intro h <;> simp_all [editorInv])
